import Mathlib

/-!
Shallow embedding of `src/Matlab/MEX/Cpp/calcProfitLoss/calcProfitLoss.cpp`.

Doubles are modelled as `ℚ` (the computation is exact decimal/half arithmetic),
C `int` as `ℤ`.  The C cast `int(x)` on a double truncates toward zero and is
modelled by `trunc`.  The MEX output buffers `cashIdx`/`openEQIdx` are modelled
as functions `ℕ → ℚ` that start at zero and are written by `Function.update`,
mirroring the raw pointer writes.  `mexErrMsgIdAndTxt` aborts the computation,
modelled by `Except`.
-/

/-- The `tradeEntry` struct of the source: one open lot on the ledger. -/
structure tradeEntry where
  index : ℤ
  quantity : ℤ
  price : ℚ
  deriving DecidableEq

/-- `createLineEntry` of the source: constructor for one ledger line. -/
def createLineEntry (ID : ℤ) (qty : ℤ) (price : ℚ) : tradeEntry :=
  { index := ID, quantity := qty, price := price }

/-- `sumQty` of the source: signed sum of the lot quantities on a ledger. -/
def sumQty : List tradeEntry → ℤ
  | [] => 0
  | e :: rest => e.quantity + sumQty rest

/-- The C cast `int(x)` applied to a double: truncation toward zero. -/
def trunc (q : ℚ) : ℤ := q.num.tdiv q.den

/-- Modelled from the spec: `fraction` is declared in the missing header
`myMath.h`; per the spec a signal is "advanced" exactly when it has a nonzero
fractional part, so `fraction num` is true iff `num` is not a whole number. -/
def fraction (num : ℚ) : Bool := decide (num ≠ (trunc num : ℚ))

/-- `knownAdvSig` of the source: the fractional part of the signal, taken as
`abs(advSig - int(advSig))`, is exactly `0.5`. -/
def knownAdvSig (advSig : ℚ) : Bool := decide (|advSig - (trunc advSig : ℚ)| = 1/2)

/-- Abort conditions of the per-bar loop.  `fractionUnknown` is the
`mexErrMsgIdAndTxt` call for an uninterpretable advanced signal (lines 285 and
294); its message interpolates exactly one value, the offending signal
(`%f`, `sigInPtr[ii]`), and nothing else — in particular not the bar index.
`frontOfEmpty` models the undefined behaviour of `front()`/`pop_front()` on an
empty deque in the reduction loop. -/
inductive PLErr where
  | fractionUnknown (sigVal : ℚ)
  | frontOfEmpty
  deriving DecidableEq

/-- The additive/reductive test of lines 259 and 300:
`(openPosition <= 0 && sig <= -1) || (openPosition >= 0 && sig >= 1)`. -/
def additiveCond (pos : ℤ) (sig : ℚ) : Prop :=
  (pos ≤ 0 ∧ sig ≤ -1) ∨ (pos ≥ 0 ∧ sig ≥ 1)

instance (pos : ℤ) (sig : ℚ) : Decidable (additiveCond pos sig) := by
  unfold additiveCond
  infer_instance

/-- The full-liquidation `while (!openLedger.empty())` loops of lines 271-277
and 314-320: total cash realized when every lot is popped from the front at
execution price `execPx`. -/
def liquidateLedger (execPx BP COST : ℚ) : List tradeEntry → ℚ
  | [] => 0
  | e :: rest =>
      ((execPx - e.price) * (e.quantity : ℚ) * BP) - (((|e.quantity| : ℤ) : ℚ) * COST)
        + liquidateLedger execPx BP COST rest

/-- The reduction `while (needQty != 0)` loop of lines 340-364.  The front lot
is shrunk in place when `abs(front.quantity) > needQty` (note: the source
compares against the signed `needQty`), otherwise it is popped whole, cash
accruing with the `-needQty` resp. `-front.quantity` factors of lines 346 and
357.  Returns the remaining ledger and the cash realized. -/
def consumeLoop (execPx BP COST : ℚ) : List tradeEntry → ℤ → Except PLErr (List tradeEntry × ℚ)
  | ledger, needQty =>
    if needQty = 0 then .ok (ledger, 0)
    else
      match ledger with
      | [] => .error .frontOfEmpty
      | e :: rest =>
        if |e.quantity| > needQty then
          .ok ({ index := e.index, quantity := e.quantity + needQty, price := e.price } :: rest,
               ((execPx - e.price) * (-(needQty : ℚ)) * BP) - (((|needQty| : ℤ) : ℚ) * COST))
        else
          match consumeLoop execPx BP COST rest (needQty + e.quantity) with
          | .error err => .error err
          | .ok (L, c) =>
            .ok (L, ((execPx - e.price) * (-(e.quantity : ℚ)) * BP)
                      - (((|e.quantity| : ℤ) : ℚ) * COST) + c)

/-- Lines 250-297: the advanced (fractional) signal handling.  An additive
fractional signal is ignored here; a reductive one with remainder exactly `.5`
liquidates the whole ledger and zeroes the position; anything else aborts.
Returns the ledger, position and cash with which the integer handling of lines
299-368 then proceeds. -/
def advancedStage (ii : ℤ) (sig execPx BP COST : ℚ) (ledger : List tradeEntry) (pos : ℤ) :
    Except PLErr (List tradeEntry × ℤ × ℚ) :=
  if fraction sig then
    if knownAdvSig sig then
      if additiveCond pos sig then
        .ok (ledger, pos, 0)
      else
        if |sig - (trunc sig : ℚ)| = 1/2 then
          .ok ([], 0, liquidateLedger execPx BP COST ledger)
        else
          .error (.fractionUnknown sig)
    else
      .error (.fractionUnknown sig)
  else
    .ok (ledger, pos, 0)

/-- Lines 299-368: the integer trade handling.  Additive signals push a lot at
the next bar's open; reductive signals with `int(abs(sig)) >= abs(pos)` run the
full liquidation (pushing a remainder lot when the net is nonzero), smaller
ones run the reduction loop, the position tracker being updated by
`openPosition + sig` truncated (line 366). -/
def integerStage (ii : ℤ) (sig execPx BP COST : ℚ) (ledger : List tradeEntry) (pos : ℤ) :
    Except PLErr (List tradeEntry × ℤ × ℚ) :=
  if additiveCond pos sig then
    .ok (ledger ++ [createLineEntry ii (trunc sig) execPx], pos + trunc sig, 0)
  else
    if trunc |sig| ≥ |pos| then
      .ok (if trunc sig + pos = 0 then [] else [createLineEntry ii (trunc sig + pos) execPx],
           trunc sig + pos,
           liquidateLedger execPx BP COST ledger)
    else
      match consumeLoop execPx BP COST ledger (trunc sig) with
      | .error err => .error err
      | .ok (L, c) => .ok (L, trunc ((pos : ℚ) + sig), c)

/-- One nonzero-signal bar of the main loop (lines 248-370, without the
open-equity block): advanced handling followed by integer handling; the cash
deltas add up into `cashIdx[ii+1]`.  A zero signal leaves the state unchanged. -/
def stepBar (ii : ℤ) (sig execPx BP COST : ℚ) (ledger : List tradeEntry) (pos : ℤ) :
    Except PLErr (List tradeEntry × ℤ × ℚ) :=
  if sig = 0 then .ok (ledger, pos, 0)
  else
    match advancedStage ii sig execPx BP COST ledger pos with
    | .error err => .error err
    | .ok (L1, p1, c1) =>
      match integerStage ii sig execPx BP COST L1 p1 with
      | .error err => .error err
      | .ok (L2, p2, c2) => .ok (L2, p2, c1 + c2)

/-- The open-equity aggregation of lines 383-386: sum over the ledger of
`(ref - price) * quantity * BIG_POINT`. -/
def mtmSum (ref BP : ℚ) : List tradeEntry → ℚ
  | [] => 0
  | e :: rest => (ref - e.price) * (e.quantity : ℚ) * BP + mtmSum ref BP rest

/-- The mutable state of the main loop: the ledger, the `openPosition`
tracker, and the `cashIdx`/`openEQIdx` output buffers. -/
structure LoopState where
  ledger : List tradeEntry
  openPosition : ℤ
  cash : ℕ → ℚ
  openEQ : ℕ → ℚ

/-- One full iteration of the main loop for bar `ii` (lines 248-387): the
signal handling followed by the open-equity write to `openEQIdx[ii+1]` when
the position is open.  `rowsData * shifter` is `SHIFT_CLOSE`. -/
def barBody (rowsData shifter : ℕ) (d sig : ℕ → ℚ) (BP COST : ℚ) (ii : ℕ) (st : LoopState) :
    Except PLErr LoopState :=
  match stepBar (ii : ℤ) (sig ii) (d (ii + 1)) BP COST st.ledger st.openPosition with
  | .error err => .error err
  | .ok (L, p, c) =>
    .ok { ledger := L
          openPosition := p
          cash := Function.update st.cash (ii + 1) (st.cash (ii + 1) + c)
          openEQ :=
            if p = 0 then st.openEQ
            else
              Function.update st.openEQ (ii + 1)
                (st.openEQ (ii + 1) + mtmSum (d (ii + 1 + rowsData * shifter)) BP L) }

/-- The main loop over the listed bar indices. -/
def runLoop (rowsData shifter : ℕ) (d sig : ℕ → ℚ) (BP COST : ℚ) :
    List ℕ → LoopState → Except PLErr LoopState
  | [], st => .ok st
  | ii :: rest, st =>
    match barBody rowsData shifter d sig BP COST ii st with
    | .error err => .error err
    | .ok st2 => runLoop rowsData shifter d sig BP COST rest st2

/-- The normalization pass of lines 400-406 over the listed indices:
`openEQ[ll]` is overwritten with `cash[ll+1]` when they differ, the next
open equity is zero and the next cash is positive. -/
def normPass (cash : ℕ → ℚ) : List ℕ → (ℕ → ℚ) → (ℕ → ℚ)
  | [], oeq => oeq
  | ll :: rest, oeq =>
    normPass cash rest
      (if oeq ll ≠ cash (ll + 1) ∧ oeq (ll + 1) = 0 ∧ cash (ll + 1) > 0 then
        Function.update oeq ll (cash (ll + 1))
      else oeq)

/-- The running sum of `cash` through index `k` (the `runSum` accumulator of
lines 408-413). -/
def runSum (cash : ℕ → ℚ) : ℕ → ℚ
  | 0 => cash 0
  | k + 1 => runSum cash k + cash (k + 1)

/-- The whole computational core of `mexFunction` (lines 212-434): scan for the
first bar with `|sig| >= 1`; when none exists return four zero series;
otherwise seed the ledger with the truncated first signal at the next bar's
open, run the main loop up to the second-to-last bar, normalize open equity,
and derive net liquidity and returns.  `d` is the column-major price buffer
(`dataInPtr`), `rowsData`/`colsData` its shape. -/
def calcProfitLoss (rowsData colsData : ℕ) (d sig : ℕ → ℚ) (BP COST : ℚ) :
    Except PLErr (List ℚ × List ℚ × List ℚ × List ℚ) :=
  let shifter := if colsData = 4 then 3 else 1
  match (List.range rowsData).find? (fun i => decide (1 ≤ |sig i|)) with
  | none =>
    .ok (List.replicate rowsData 0, List.replicate rowsData 0,
         List.replicate rowsData 0, List.replicate rowsData 0)
  | some sigIdx =>
    let st0 : LoopState :=
      { ledger := [createLineEntry (sigIdx : ℤ) (trunc (sig sigIdx)) (d (sigIdx + 1))]
        openPosition := trunc (sig sigIdx)
        cash := fun _ => 0
        openEQ := fun _ => 0 }
    match runLoop rowsData shifter d sig BP COST
        (List.range' (sigIdx + 1) (rowsData - 1 - (sigIdx + 1))) st0 with
    | .error err => .error err
    | .ok st =>
      let oeqN := normPass st.cash (List.range' 1 (rowsData - 2)) st.openEQ
      let netLiq := fun k => runSum st.cash k + oeqN k
      .ok ((List.range rowsData).map st.cash,
           (List.range rowsData).map oeqN,
           (List.range rowsData).map netLiq,
           (List.range rowsData).map (fun k => if k = 0 then 0 else netLiq k - netLiq (k - 1)))

/-- The ledger sign invariant stated by the spec: every lot's quantity has the
sign of the net open position. -/
def ledgerSignOK (ledger : List tradeEntry) (pos : ℤ) : Prop :=
  ∀ e ∈ ledger, (0 < e.quantity ↔ 0 < pos) ∧ (e.quantity < 0 ↔ pos < 0)

instance (ledger : List tradeEntry) (pos : ℤ) : Decidable (ledgerSignOK ledger pos) := by
  unfold ledgerSignOK
  infer_instance

/-! ### Helper lemmas -/

theorem trunc_intCast (z : ℤ) : trunc (z : ℚ) = z := by
  unfold trunc
  rw [Rat.num_intCast, Rat.den_intCast]
  exact Int.tdiv_one z

theorem trunc_eq_floor_of_nonneg {q : ℚ} (h : 0 ≤ q) : trunc q = ⌊q⌋ := by
  unfold trunc
  rw [Rat.floor_def]
  exact Int.tdiv_eq_ediv (Rat.num_nonneg.mpr h) (Int.ofNat_nonneg q.den)

theorem trunc_neg (q : ℚ) : trunc (-q) = - trunc q := by
  unfold trunc
  rw [Rat.neg_num, Rat.neg_den, Int.neg_tdiv]

theorem trunc_nonneg {q : ℚ} (h : 0 ≤ q) : 0 ≤ trunc q := by
  rw [trunc_eq_floor_of_nonneg h]
  exact Int.floor_nonneg.mpr h

theorem trunc_intCast_add_half (X : ℤ) (hX : 0 ≤ X) : trunc ((X : ℚ) + 1/2) = X := by
  have hXQ : (0:ℚ) ≤ (X : ℚ) := by exact_mod_cast hX
  have h0 : (0:ℚ) ≤ (X : ℚ) + 1/2 := by linarith
  rw [trunc_eq_floor_of_nonneg h0, add_comm, Int.floor_add_int]
  norm_num

theorem fraction_eq_false_iff (q : ℚ) : fraction q = false ↔ q = (trunc q : ℚ) := by
  unfold fraction
  simp

theorem fraction_zero : fraction 0 = false := by
  rw [fraction_eq_false_iff]
  have : ((0:ℤ) : ℚ) = (0 : ℚ) := by norm_num
  rw [← this, trunc_intCast]

theorem sumQty_append (L : List tradeEntry) (e : tradeEntry) :
    sumQty (L ++ [e]) = sumQty L + e.quantity := by
  induction L with
  | nil => simp [sumQty]
  | cons a rest ih =>
    show a.quantity + sumQty (rest ++ [e]) = a.quantity + sumQty rest + e.quantity
    rw [ih]
    ring

theorem consumeLoop_nil (execPx BP COST : ℚ) (needQty : ℤ) :
    consumeLoop execPx BP COST [] needQty =
      if needQty = 0 then .ok ([], 0) else .error .frontOfEmpty := by
  conv_lhs => rw [consumeLoop]

theorem consumeLoop_cons (execPx BP COST : ℚ) (e : tradeEntry) (rest : List tradeEntry)
    (needQty : ℤ) :
    consumeLoop execPx BP COST (e :: rest) needQty =
      if needQty = 0 then .ok (e :: rest, 0)
      else if |e.quantity| > needQty then
        .ok ({ index := e.index, quantity := e.quantity + needQty, price := e.price } :: rest,
             ((execPx - e.price) * (-(needQty : ℚ)) * BP) - (((|needQty| : ℤ) : ℚ) * COST))
      else
        match consumeLoop execPx BP COST rest (needQty + e.quantity) with
        | .error err => .error err
        | .ok (L, c) =>
          .ok (L, ((execPx - e.price) * (-(e.quantity : ℚ)) * BP)
                    - (((|e.quantity| : ℤ) : ℚ) * COST) + c) := by
  conv_lhs => rw [consumeLoop]

theorem consumeLoop_sum (execPx BP COST : ℚ) :
    ∀ (L L' : List tradeEntry) (needQty : ℤ) (c : ℚ),
      consumeLoop execPx BP COST L needQty = .ok (L', c) →
      sumQty L' = sumQty L + needQty := by
  intro L
  induction L with
  | nil =>
    intro L' needQty c h
    rw [consumeLoop_nil] at h
    split at h
    · next h0 =>
      simp only [Except.ok.injEq, Prod.mk.injEq] at h
      rw [← h.1, h0, add_zero]
    · exact Except.noConfusion h
  | cons e rest ih =>
    intro L' needQty c h
    rw [consumeLoop_cons] at h
    split at h
    · next h0 =>
      simp only [Except.ok.injEq, Prod.mk.injEq] at h
      rw [← h.1, h0, add_zero]
    · split at h
      · simp only [Except.ok.injEq, Prod.mk.injEq] at h
        rw [← h.1]
        show ({ index := e.index, quantity := e.quantity + needQty,
                  price := e.price } : tradeEntry).quantity + sumQty rest =
            e.quantity + sumQty rest + needQty
        ring_nf
      · cases hrec : consumeLoop execPx BP COST rest (needQty + e.quantity) with
        | error err =>
          rw [hrec] at h
          exact Except.noConfusion h
        | ok pair =>
          obtain ⟨L2, c2⟩ := pair
          rw [hrec] at h
          simp only [Except.ok.injEq, Prod.mk.injEq] at h
          have hs := ih L2 (needQty + e.quantity) c2 hrec
          rw [← h.1, hs]
          show sumQty rest + (needQty + e.quantity) = e.quantity + sumQty rest + needQty
          ring

theorem advancedStage_ok {ii : ℤ} {sig execPx BP COST : ℚ} {L : List tradeEntry} {pos : ℤ}
    {L1 : List tradeEntry} {p1 : ℤ} {c1 : ℚ}
    (h : advancedStage ii sig execPx BP COST L pos = .ok (L1, p1, c1)) :
    (L1 = L ∧ p1 = pos ∧ (fraction sig = false ∨ additiveCond pos sig)) ∨ (L1 = [] ∧ p1 = 0) := by
  unfold advancedStage at h
  split at h
  · split at h
    · split at h
      · next hadd =>
        simp only [Except.ok.injEq, Prod.mk.injEq] at h
        exact Or.inl ⟨h.1.symm, h.2.1.symm, Or.inr hadd⟩
      · split at h
        · simp only [Except.ok.injEq, Prod.mk.injEq] at h
          exact Or.inr ⟨h.1.symm, h.2.1.symm⟩
        · exact absurd h (by simp)
    · exact absurd h (by simp)
  · next hfrac =>
    simp only [Except.ok.injEq, Prod.mk.injEq] at h
    exact Or.inl ⟨h.1.symm, h.2.1.symm, Or.inl (by simpa using hfrac)⟩

theorem advanced_reductive_integral {ii : ℤ} {sig execPx BP COST : ℚ} {L : List tradeEntry}
    {pos : ℤ} {L1 : List tradeEntry} {p1 : ℤ} {c1 : ℚ}
    (h : advancedStage ii sig execPx BP COST L pos = .ok (L1, p1, c1))
    (hna : ¬ additiveCond p1 sig) (hlt : trunc |sig| < |p1|) :
    sig = (trunc sig : ℚ) := by
  rcases advancedStage_ok h with ⟨_, rfl, hc⟩ | ⟨_, rfl⟩
  · rcases hc with hf | ha
    · exact (fraction_eq_false_iff sig).mp hf
    · exact absurd ha hna
  · have h0 : (0:ℤ) ≤ trunc |sig| := trunc_nonneg (abs_nonneg sig)
    simp only [abs_zero] at hlt
    omega

theorem integerStage_sum {ii : ℤ} {sig execPx BP COST : ℚ} {L : List tradeEntry} {pos : ℤ}
    {L2 : List tradeEntry} {p2 : ℤ} {c2 : ℚ}
    (hsum : sumQty L = pos)
    (hint : ¬ additiveCond pos sig → trunc |sig| < |pos| → sig = (trunc sig : ℚ))
    (h : integerStage ii sig execPx BP COST L pos = .ok (L2, p2, c2)) :
    sumQty L2 = p2 := by
  unfold integerStage at h
  split at h
  · simp only [Except.ok.injEq, Prod.mk.injEq] at h
    rw [← h.1, ← h.2.1, sumQty_append, hsum]
    simp [createLineEntry]
  · next hna =>
    split at h
    · simp only [Except.ok.injEq, Prod.mk.injEq] at h
      rw [← h.1, ← h.2.1]
      split
      · next hz => simp [sumQty, hz]
      · simp [sumQty, createLineEntry]
    · next hge =>
      have hlt : trunc |sig| < |pos| := not_le.mp hge
      have hint2 : sig = (trunc sig : ℚ) := hint hna hlt
      cases hrec : consumeLoop execPx BP COST L (trunc sig) with
      | error err =>
        rw [hrec] at h
        exact absurd h (by simp)
      | ok pair =>
        obtain ⟨L', c'⟩ := pair
        rw [hrec] at h
        simp only [Except.ok.injEq, Prod.mk.injEq] at h
        have hs := consumeLoop_sum execPx BP COST L L' (trunc sig) c' hrec
        have htr : trunc ((pos : ℚ) + sig) = pos + trunc sig := by
          conv_lhs => rw [hint2]
          rw [show ((pos:ℚ) + (trunc sig : ℚ)) = ((pos + trunc sig : ℤ) : ℚ) by push_cast; ring]
          rw [trunc_intCast]
        rw [← h.1, hs, hsum, ← h.2.1, htr]

theorem stepBar_sum {ii : ℤ} {sig execPx BP COST : ℚ} {L : List tradeEntry} {pos : ℤ}
    {L' : List tradeEntry} {p' : ℤ} {c : ℚ}
    (hsum : sumQty L = pos)
    (h : stepBar ii sig execPx BP COST L pos = .ok (L', p', c)) :
    sumQty L' = p' := by
  unfold stepBar at h
  split at h
  · simp only [Except.ok.injEq, Prod.mk.injEq] at h
    rw [← h.1, ← h.2.1]
    exact hsum
  · cases hadv : advancedStage ii sig execPx BP COST L pos with
    | error e =>
      rw [hadv] at h
      exact Except.noConfusion h
    | ok trip =>
      obtain ⟨L1, p1, c1⟩ := trip
      simp only [hadv] at h
      cases hint : integerStage ii sig execPx BP COST L1 p1 with
      | error e =>
        simp only [hint] at h
        exact Except.noConfusion h
      | ok trip2 =>
        obtain ⟨L2, p2, c2⟩ := trip2
        simp only [hint, Except.ok.injEq, Prod.mk.injEq] at h
        have hs1 : sumQty L1 = p1 := by
          rcases advancedStage_ok hadv with ⟨rfl, rfl, _⟩ | ⟨rfl, rfl⟩
          · exact hsum
          · rfl
        have hfin := integerStage_sum hs1
          (fun hna hlt => advanced_reductive_integral hadv hna hlt) hint
        rw [← h.1, ← h.2.1]
        exact hfin

/-! ### Claim theorems -/

/-- C6: after the initial seed (one lot holding the truncated first signal)
and after every per-bar mutation performed by the signal handling — additive
push, reduction, full liquidation with remainder, close-all, reverse — the
signed sum of the lot quantities on the ledger (`sumQty`) equals the tracked
`openPosition` scalar. -/
theorem C6_ledger_conservation :
    (∀ (i : ℤ) (s : ℚ) (p : ℚ), sumQty [createLineEntry i (trunc s) p] = trunc s) ∧
    ∀ (ii : ℤ) (sig execPx BP COST : ℚ) (L : List tradeEntry) (pos : ℤ)
      (L' : List tradeEntry) (p' : ℤ) (c : ℚ),
      sumQty L = pos → stepBar ii sig execPx BP COST L pos = .ok (L', p', c) →
      sumQty L' = p' := by
  constructor
  · intro i s p
    simp [sumQty, createLineEntry]
  · intro ii sig execPx BP COST L pos L' p' c hsum h
    exact stepBar_sum hsum h

/-- Witness for C6: a concrete reductive bar (position 2, signal −1). -/
theorem C6_ledger_conservation_witness :
    stepBar 1 (-1) 20 1 0 [createLineEntry 0 2 10] 2 = .ok ([createLineEntry 0 1 10], 1, 10) ∧
    sumQty [createLineEntry 0 1 10] = 1 := by
  constructor
  · with_unfolding_all rfl
  · exact C6_ledger_conservation.2 1 (-1) 20 1 0 [createLineEntry 0 2 10] 2
      [createLineEntry 0 1 10] 1 10 (by decide) (by with_unfolding_all rfl)

/-- C10: by the time the integer trade handling runs inside `stepBar`, the
guard of its reduction branch (not additive and `trunc |sig| < |pos|`) forces
the signal to be an exact integer, so the truncations in `needQty` and in the
line-366 position update discard nothing: every fractional signal has either
aborted, been classified additive (marker ignored), or zeroed the position in
`advancedStage` first. -/
theorem C10_reduction_branch_integral_signal :
    ∀ (ii : ℤ) (sig execPx BP COST : ℚ) (L : List tradeEntry) (pos : ℤ)
      (L1 : List tradeEntry) (p1 : ℤ) (c1 : ℚ),
      advancedStage ii sig execPx BP COST L pos = .ok (L1, p1, c1) →
      ¬ additiveCond p1 sig → trunc |sig| < |p1| →
      sig = (trunc sig : ℚ) := by
  intro ii sig execPx BP COST L pos L1 p1 c1 h hna hlt
  exact advanced_reductive_integral h hna hlt

/-- Witness for C10: position 3, integer signal −2 reaches the reduction
branch and is indeed integral. -/
theorem C10_reduction_branch_integral_signal_witness :
    (-2 : ℚ) = ((trunc (-2 : ℚ) : ℤ) : ℚ) :=
  C10_reduction_branch_integral_signal 1 (-2) 30 1 0 [createLineEntry 0 3 10] 3
    [createLineEntry 0 3 10] 3 0 (by with_unfolding_all rfl)
    (by with_unfolding_all decide) (by with_unfolding_all decide)

/-- C4 (amended): a nonzero signal whose fractional part's magnitude is not
exactly 0.5 aborts the computation with an error reporting the offending
signal value — only that value, not the bar index, which the source's error
messages never interpolate — and only when the per-bar loop examines it, i.e.
at a bar strictly after the first bar with `|signal| >= 1` and strictly before
the last bar; invalid fractional signals outside that range are never
inspected. -/
theorem C4_amended_loop_fraction_error :
    ∀ (ii : ℤ) (sig execPx BP COST : ℚ) (L : List tradeEntry) (pos : ℤ),
      fraction sig = true → knownAdvSig sig = false →
      stepBar ii sig execPx BP COST L pos = .error (.fractionUnknown sig) := by
  intro ii sig execPx BP COST L pos hf hk
  have hne : sig ≠ 0 := by
    intro h0
    rw [h0, fraction_zero] at hf
    exact Bool.false_ne_true hf
  unfold stepBar advancedStage
  rw [if_neg hne, hf, hk]
  rfl

/-- Witness for C4 (amended): the invalid fractional signal 0.25 aborts when
it reaches the loop body. -/
theorem C4_amended_loop_fraction_error_witness :
    stepBar 2 (mkRat 1 4) 0 1 0 [] 0 = .error (.fractionUnknown (mkRat 1 4)) :=
  C4_amended_loop_fraction_error 2 (mkRat 1 4) 0 1 0 [] 0
    (by with_unfolding_all decide) (by with_unfolding_all decide)

/-- Price buffer for the C4 counterexample (all zeros). -/
def dC4 : ℕ → ℚ := fun _ => 0

/-- Signal series for the C4 counterexample: the invalid fractional value 0.25
at bar 0, zero afterwards. -/
def sigC4 : ℕ → ℚ := fun i => if i = 0 then mkRat 1 4 else 0

/-- C4 counterexample: an input containing an invalid fractional signal (0.25
at bar 0) does not abort — the forward scan only looks for `|signal| >= 1`, so
the run completes, returning the zero-filled series. -/
theorem C4_counterexample :
    fraction (sigC4 0) = true ∧ knownAdvSig (sigC4 0) = false ∧
    calcProfitLoss 2 2 dC4 sigC4 1 0 =
      .ok (List.replicate 2 0, List.replicate 2 0, List.replicate 2 0, List.replicate 2 0) := by
  refine ⟨by with_unfolding_all decide, by with_unfolding_all decide, ?_⟩
  with_unfolding_all rfl

/-- C3: code bug — with an open short position of −50 and the fractional
reverse signal −1.5 (the exact case of the claim), the source classifies the
signal additive at line 259, ignores the advanced marker, and sells one more
contract (position −51, no error), contradicting the error documented in the
file's own header (lines 41-42); no IllegalReverse abort exists in the code. -/
theorem C3_illegal_reverse_applied_silently :
    stepBar 7 (mkRat (-3) 2) 20 1 0 [createLineEntry 0 (-50) 10] (-50) =
      .ok ([createLineEntry 0 (-50) 10, createLineEntry 7 (-1) 20], -51, 0) := by
  with_unfolding_all rfl

/-- C1: code bug — reducing a long position of 5 (lots 2@10 then 3@20) by 4
does not consume FIFO: the signed comparison `abs(front.quantity) > needQty`
of line 343 is vacuously true for a long reduction (needQty < 0), so the whole
reduction is cashed against the front lot at its entry price (80 = (30−10)·4),
the front lot is driven to −2 and the second lot is untouched, where FIFO
consumption would remove the front lot and shrink the second (cash 60). -/
theorem C1_reduction_loop_signed_compare_bug :
    stepBar 5 (-4) 30 1 0 [createLineEntry 0 2 10, createLineEntry 1 3 20] 5 =
      .ok ([createLineEntry 0 (-2) 10, createLineEntry 1 3 20], 1, 80) ∧
    ((30:ℚ) - 10) * 2 * 1 + ((30:ℚ) - 20) * 2 * 1 = 60 :=
  ⟨by with_unfolding_all rfl, by norm_num⟩

/-- C2: code bug — reducing a short position of −5 (lots −2@10 then −3@20) by
4: the fully consumed front lot realizes `(px − entry) · (−quantity)` per line
357 (here (30−10)·(+2) = +40) instead of the claimed signed-quantity formula
(−40, the convention of the liquidation loops at lines 274 and 317), so the
step realizes cash 20 where the claimed formula totals −60. -/
theorem C2_full_consumption_sign_bug :
    stepBar 5 4 30 1 0 [createLineEntry 0 (-2) 10, createLineEntry 1 (-3) 20] (-5) =
      .ok ([createLineEntry 1 (-1) 20], -1, 20) ∧
    ((30:ℚ) - 10) * (-2) * 1 - |(-2 : ℚ)| * 0
      + (((30:ℚ) - 20) * (-2) * 1 - |(-2 : ℚ)| * 0) = -60 :=
  ⟨by with_unfolding_all rfl, by norm_num⟩

/-- C5: code bug — the all-lots-share-the-position's-sign invariant is not
preserved: from a ledger satisfying it (lots 1@10, 2@20, position 3), reducing
by 2 leaves a −1 lot next to a +2 lot with position 1, because line 343's
signed comparison shrinks the front lot below zero instead of consuming FIFO. -/
theorem C5_sign_invariant_broken :
    ledgerSignOK [createLineEntry 0 1 10, createLineEntry 1 2 20] 3 ∧
    stepBar 2 (-2) 30 1 0 [createLineEntry 0 1 10, createLineEntry 1 2 20] 3 =
      .ok ([createLineEntry 0 (-1) 10, createLineEntry 1 2 20], 1, 40) ∧
    ¬ ledgerSignOK [createLineEntry 0 (-1) 10, createLineEntry 1 2 20] 1 :=
  ⟨by with_unfolding_all decide, by with_unfolding_all rfl, by with_unfolding_all decide⟩

/-- C7: reverse symmetry — at an iterated bar with position P < 0 and signal
X.5 (X ≥ 1), `stepBar` liquidates the entire short position and leaves exactly
one new lot of +X at the execution price, the position being exactly +X;
symmetrically, P > 0 with signal −X.5 yields exactly −X. -/
theorem C7_reverse_symmetry :
    ∀ (ii : ℤ) (px BP COST : ℚ) (L : List tradeEntry) (pos X : ℤ), 1 ≤ X →
      (pos < 0 → stepBar ii ((X : ℚ) + 1/2) px BP COST L pos =
        .ok ([createLineEntry ii X px], X, liquidateLedger px BP COST L)) ∧
      (0 < pos → stepBar ii (-((X : ℚ) + 1/2)) px BP COST L pos =
        .ok ([createLineEntry ii (-X) px], -X, liquidateLedger px BP COST L)) := by
  intro ii px BP COST L pos X hX
  have hX0 : (0:ℤ) ≤ X := by omega
  have hXQ : (1:ℚ) ≤ (X:ℚ) := by exact_mod_cast hX
  set s : ℚ := (X:ℚ) + 1/2 with hs
  have hspos : (0:ℚ) < s := by rw [hs]; linarith
  have hne : s ≠ 0 := ne_of_gt hspos
  have hnen : -s ≠ 0 := neg_ne_zero.mpr hne
  have htr : trunc s = X := trunc_intCast_add_half X hX0
  have htrn : trunc (-s) = -X := by rw [trunc_neg, htr]
  have habs : |s - (trunc s : ℚ)| = 1/2 := by
    rw [htr]
    have h1 : s - (X:ℚ) = 1/2 := by rw [hs]; ring
    rw [h1, abs_of_pos (by norm_num : (0:ℚ) < 1/2)]
  have habsn : |(-s) - (trunc (-s) : ℚ)| = 1/2 := by
    rw [htrn]
    have h1 : (-s) - ((-X : ℤ) : ℚ) = -(1/2) := by rw [hs]; push_cast; ring
    rw [h1, abs_neg, abs_of_pos (by norm_num : (0:ℚ) < 1/2)]
  have hfr : fraction s = true := by
    unfold fraction
    apply decide_eq_true
    rw [htr, hs]
    intro heq
    have : (1:ℚ)/2 = 0 := by linarith [heq]
    norm_num at this
  have hfrn : fraction (-s) = true := by
    unfold fraction
    apply decide_eq_true
    rw [htrn]
    push_cast
    intro heq
    have : (1:ℚ)/2 = 0 := by rw [hs] at heq; linarith [heq]
    norm_num at this
  have hknown : knownAdvSig s = true := by
    unfold knownAdvSig
    exact decide_eq_true habs
  have hknownn : knownAdvSig (-s) = true := by
    unfold knownAdvSig
    exact decide_eq_true habsn
  constructor
  · intro hpos
    have hnadd : ¬ additiveCond pos s := by
      rintro (⟨h1, h2⟩ | ⟨h1, h2⟩)
      · rw [hs] at h2; linarith
      · omega
    have hadd0 : additiveCond 0 s := Or.inr ⟨le_refl 0, by rw [hs]; linarith⟩
    have hadv : advancedStage ii s px BP COST L pos =
        .ok ([], 0, liquidateLedger px BP COST L) := by
      simp [advancedStage, hfr, hknown, hnadd, habs]
    have hint : integerStage ii s px BP COST [] 0 =
        .ok ([createLineEntry ii X px], X, 0) := by
      simp [integerStage, hadd0, htr]
    unfold stepBar
    rw [if_neg hne]
    simp only [hadv, hint]
    rw [add_zero]
  · intro hpos
    have hnadd : ¬ additiveCond pos (-s) := by
      rintro (⟨h1, h2⟩ | ⟨h1, h2⟩)
      · omega
      · rw [hs] at h2; linarith
    have hadd0 : additiveCond 0 (-s) := Or.inl ⟨le_refl 0, by rw [hs]; linarith⟩
    have hadv : advancedStage ii (-s) px BP COST L pos =
        .ok ([], 0, liquidateLedger px BP COST L) := by
      simp [advancedStage, hfrn, hknownn, hnadd, habsn]
    have hint : integerStage ii (-s) px BP COST [] 0 =
        .ok ([createLineEntry ii (-X) px], -X, 0) := by
      simp [integerStage, hadd0, htrn]
    unfold stepBar
    rw [if_neg hnen]
    simp only [hadv, hint]
    rw [add_zero]

/-- Witness for C7: short position −2 with signal 1.5 reverses to +1, long
position 2 with signal −1.5 reverses to −1. -/
theorem C7_reverse_symmetry_witness :
    stepBar 3 ((1 : ℚ) + 1/2) 20 1 0 [createLineEntry 0 (-2) 10] (-2) =
      .ok ([createLineEntry 3 1 20], 1,
           liquidateLedger 20 1 0 [createLineEntry 0 (-2) 10]) ∧
    stepBar 3 (-((1 : ℚ) + 1/2)) 20 1 0 [createLineEntry 0 2 10] 2 =
      .ok ([createLineEntry 3 (-1) 20], -1,
           liquidateLedger 20 1 0 [createLineEntry 0 2 10]) :=
  ⟨(C7_reverse_symmetry 3 20 1 0 [createLineEntry 0 (-2) 10] (-2) 1 (by decide)).1
      (by decide),
   (C7_reverse_symmetry 3 20 1 0 [createLineEntry 0 2 10] 2 1 (by decide)).2
      (by decide)⟩

/-- C9 (amended): after each iterated bar's action, when the position is
nonzero, `openEQIdx[ii+1]` receives the mark-to-market sum over the current
lots against the price at row `ii+1` offset by `rowsData * shifter`
(`SHIFT_CLOSE`) into the flat buffer — the close column (column 1) of the
narrow 2-column form, which is not the open column used for execution prices,
and the fourth column of the wide form; when the position is zero the entry
stays 0. -/
theorem C9_amended_mark_to_market :
    ∀ (rowsData shifter : ℕ) (d sig : ℕ → ℚ) (BP COST : ℚ) (ii : ℕ) (st st' : LoopState),
      barBody rowsData shifter d sig BP COST ii st = .ok st' →
      st.openEQ (ii + 1) = 0 →
      (st'.openPosition ≠ 0 →
        st'.openEQ (ii + 1) = mtmSum (d (ii + 1 + rowsData * shifter)) BP st'.ledger) ∧
      (st'.openPosition = 0 → st'.openEQ (ii + 1) = 0) := by
  intro rowsData shifter d sig BP COST ii st st' h h0
  unfold barBody at h
  cases hstep : stepBar (ii : ℤ) (sig ii) (d (ii + 1)) BP COST st.ledger st.openPosition with
  | error e =>
    rw [hstep] at h
    exact Except.noConfusion h
  | ok trip =>
    obtain ⟨L, p, c⟩ := trip
    simp only [hstep, Except.ok.injEq] at h
    subst h
    constructor
    · intro hp
      simp only at hp
      simp only [if_neg hp]
      rw [Function.update_same, h0, zero_add]
    · intro hp
      simp only at hp
      simp only [if_pos hp]
      exact h0

/-- Price buffer for the C9 example: narrow form, 3 rows; open column
(indices 0,1,2) is 0,10,20 and close column (indices 3,4,5) is 0,0,30. -/
def dC9 : ℕ → ℚ := fun j => if j = 1 then 10 else if j = 2 then 20 else if j = 5 then 30 else 0

/-- Signal series for the C9 example: buy 1 at bar 0, nothing afterwards. -/
def sigC9 : ℕ → ℚ := fun j => if j = 0 then 1 else 0

/-- C9 counterexample: on the narrow 2-column form, the open-equity write for
bar 1 marks the lot (entered at open 10) against the close column value 30
(offset `rowsData * 1`), producing openEQ 20 at row 2 — not against the open
column used for execution prices (value 20), which would produce 10 as the
claim states for the narrow form. -/
theorem C9_counterexample :
    calcProfitLoss 3 2 dC9 sigC9 1 0 =
      .ok ([0, 0, 0], [0, 0, 20], [0, 0, 20], [0, 0, 20]) ∧
    mtmSum (dC9 2) 1 [createLineEntry 0 1 (dC9 1)] = 10 ∧ (20 : ℚ) ≠ 10 := by
  refine ⟨?_, by with_unfolding_all rfl, by norm_num⟩
  with_unfolding_all rfl

/-- Loop state before bar 1 of the C9 example run. -/
def st0C9 : LoopState :=
  { ledger := [createLineEntry 0 1 10], openPosition := 1
    cash := fun _ => 0, openEQ := fun _ => 0 }

/-- Loop state after bar 1 of the C9 example run. -/
def st1C9 : LoopState :=
  { ledger := [createLineEntry 0 1 10]
    openPosition := 1
    cash := Function.update st0C9.cash 2 (st0C9.cash 2 + 0)
    openEQ := Function.update st0C9.openEQ 2
      (st0C9.openEQ 2 + mtmSum (dC9 5) 1 [createLineEntry 0 1 10]) }

/-- Witness for C9 (amended) at bar 1 of the example run. -/
theorem C9_amended_mark_to_market_witness :
    st1C9.openEQ 2 = mtmSum (dC9 (1 + 1 + 3 * 1)) 1 st1C9.ledger :=
  (C9_amended_mark_to_market 3 1 dC9 sigC9 1 0 1 st0C9 st1C9
    (by with_unfolding_all rfl) rfl).1 (by decide)

/-- The normalization pass leaves an all-zero pair of buffers unchanged. -/
theorem normPass_zero :
    ∀ ls : List ℕ, normPass (fun _ => 0) ls (fun _ => 0) = (fun _ => (0:ℚ)) := by
  intro ls
  induction ls with
  | nil => rfl
  | cons ll rest ih =>
    unfold normPass
    rw [if_neg (by simp)]
    exact ih

/-- The running sum of an all-zero cash buffer is zero. -/
theorem runSum_zero : ∀ k : ℕ, runSum (fun _ => 0) k = 0 := by
  intro k
  induction k with
  | zero => rfl
  | succ k ih =>
    unfold runSum
    rw [ih]
    norm_num

/-- Mapping a pointwise-zero function over `range n` yields `replicate n 0`. -/
theorem mapRange_zero (n : ℕ) (f : ℕ → ℚ) (h : ∀ k, f k = 0) :
    (List.range n).map f = List.replicate n 0 := by
  apply List.eq_replicate_iff.mpr
  refine ⟨by simp, ?_⟩
  intro b hb
  obtain ⟨k, _, rfl⟩ := List.mem_map.mp hb
  exact h k

/-- C8: when no signal has magnitude at least 1, or the only such signal sits
on the final bar, `calcProfitLoss` returns all four output series zero-filled
at the row count, raising no error. -/
theorem C8_no_trade_all_zero :
    ∀ (rowsData colsData : ℕ) (d sig : ℕ → ℚ) (BP COST : ℚ),
      (∀ i, i < rowsData → 1 ≤ |sig i| → i + 1 = rowsData) →
      calcProfitLoss rowsData colsData d sig BP COST =
        .ok (List.replicate rowsData 0, List.replicate rowsData 0,
             List.replicate rowsData 0, List.replicate rowsData 0) := by
  intro n colsData d sig BP COST H
  unfold calcProfitLoss
  cases hfind : (List.range n).find? (fun i => decide (1 ≤ |sig i|)) with
  | none => simp only [hfind]
  | some j =>
    have hp : (fun i => decide (1 ≤ |sig i|)) j = true :=
      @List.find?_some ℕ (fun i => decide (1 ≤ |sig i|)) j (List.range n) hfind
    have hjn : j < n := List.mem_range.mp
      (@List.mem_of_find?_eq_some ℕ (fun i => decide (1 ≤ |sig i|)) j (List.range n) hfind)
    have hj1 : j + 1 = n := H j hjn (of_decide_eq_true hp)
    have hcount : n - 1 - (j + 1) = 0 := by omega
    simp only [hfind, hcount, List.range'_zero, runLoop, normPass_zero]
    rw [mapRange_zero n _ (fun k => rfl),
        mapRange_zero n (fun k => runSum (fun _ => 0) k + (0:ℚ)) (fun k => by simp [runSum_zero]),
        mapRange_zero n _ (fun k => by
          cases k with
          | zero => rfl
          | succ m => simp [runSum_zero])]

/-- Witness for C8: two bars of all-zero signals produce zero series. -/
theorem C8_no_trade_all_zero_witness :
    calcProfitLoss 2 2 (fun _ => 0) (fun _ => 0) 1 0 =
      .ok (List.replicate 2 0, List.replicate 2 0, List.replicate 2 0, List.replicate 2 0) :=
  C8_no_trade_all_zero 2 2 (fun _ => 0) (fun _ => 0) 1 0
    (fun i _ h => absurd h (by norm_num))
